import Mathlib

/-!
Verification development for the umi-plugin-project WebP pipeline.

The definitions below are a shallow embedding of the TypeScript sources:
* `searchLoop`, `transcode`  — the adaptive quality-reduction loop of
  `convertToWebp` (plugins3/webp-convert-plugin, gen-webp) and of the
  production branch of `webpack-import-loader.ts`; the two files contain
  the identical loop.
* `convertFile`              — the per-image decision logic of `convertToWebp`
  (existing-variant skip, write condition, outcome classification).
Buffer sizes are natural numbers; qualities are integers (JS numbers may go
negative when `quality - 5` is iterated).  The sharp encoder is abstracted as
a function `encodeAt : Int → Bool → Nat` giving the size of the encoded
buffer for a quality and a lossless flag; file contents never influence the
control flow other than through sizes, so this is a faithful per-image model.
-/

set_option maxRecDepth 100000

namespace WebpSpec

/-- Resolved plugin configuration (interface `WebpConverterConfig`, with the
defaults of `defaultCofig` filled in). -/
structure WebpConverterConfig where
  quality : Int
  lossless : Bool
  onlySmallerFiles : Bool
  minQuality : Int
  processCss : Bool
  processImport : Bool
deriving DecidableEq, Repr

/-- User configuration before merging (all fields optional, as in
`api.userConfig.webpConverter`). -/
structure UserConfig where
  quality : Option Int := none
  lossless : Option Bool := none
  onlySmallerFiles : Option Bool := none
  minQuality : Option Int := none
  processCss : Option Bool := none
  processImport : Option Bool := none
deriving DecidableEq, Repr

/-- `defaultCofig` of the plugin entry (part_002). -/
def defaultCofig : WebpConverterConfig :=
  { quality := 85, lossless := false, onlySmallerFiles := true,
    minQuality := 70, processCss := true, processImport := true }

/-- `{ ...defaultCofig, ...options }` — the plugin merges the user options
over the defaults.  The joi schema of the plugin declares only
`joi.number()` / `joi.boolean()` fields with defaults and contains no range
or cross-field constraint, so every well-typed user configuration is
accepted; the merge is total. -/
def mergeConfig (u : UserConfig) : WebpConverterConfig :=
  { quality := u.quality.getD defaultCofig.quality,
    lossless := u.lossless.getD defaultCofig.lossless,
    onlySmallerFiles := u.onlySmallerFiles.getD defaultCofig.onlySmallerFiles,
    minQuality := u.minQuality.getD defaultCofig.minQuality,
    processCss := u.processCss.getD defaultCofig.processCss,
    processImport := u.processImport.getD defaultCofig.processImport }

/-- The `while (webpSize >= originalSize && currentQuality >= minQuality)`
loop of `convertToWebp`: re-encode at `currentQuality` (lossless forced to
`false`), then decrement by 5.  `webpSize` is the size of the buffer
currently held, `usedQuality` the quality it was produced at. -/
def searchLoop (encodeAt : Int → Bool → Nat) (originalSize : Nat)
    (minQuality : Int) (webpSize : Nat) (usedQuality currentQuality : Int) :
    Int × Nat :=
  if h : originalSize ≤ webpSize ∧ minQuality ≤ currentQuality then
    searchLoop encodeAt originalSize minQuality
      (encodeAt currentQuality false) currentQuality (currentQuality - 5)
  else
    (usedQuality, webpSize)
termination_by (currentQuality - minQuality + 5).toNat
decreasing_by omega

/-- Unfolding equation for `searchLoop` with a plain `if`. -/
theorem searchLoop_eq (encodeAt : Int → Bool → Nat) (originalSize : Nat)
    (minQuality : Int) (webpSize : Nat) (usedQuality currentQuality : Int) :
    searchLoop encodeAt originalSize minQuality webpSize usedQuality
        currentQuality =
      if originalSize ≤ webpSize ∧ minQuality ≤ currentQuality then
        searchLoop encodeAt originalSize minQuality
          (encodeAt currentQuality false) currentQuality (currentQuality - 5)
      else
        (usedQuality, webpSize) := by
  rw [searchLoop]
  split <;> simp_all

/-- The transcoder: first encode at the configured quality with the
configured lossless flag; if the result is not smaller, the mode is lossy
and `quality > minQuality`, run the quality-reduction loop starting at
`quality - 5`.  Returns the quality of the buffer finally held and its
size. -/
def transcode (encodeAt : Int → Bool → Nat) (originalSize : Nat)
    (quality minQuality : Int) (lossless : Bool) : Int × Nat :=
  let webpSize := encodeAt quality lossless
  if originalSize ≤ webpSize ∧ lossless = false ∧ minQuality < quality then
    searchLoop encodeAt originalSize minQuality webpSize quality (quality - 5)
  else
    (quality, webpSize)

/-- `ConversionOutcome` of one image. -/
inductive Outcome where
  | smaller (saved : Nat)
  | largerKept
  | largerSkipped
  | alreadyExists
  | error
deriving DecidableEq, Repr

/-- Per-image logic of `convertToWebp`: skip when the `.webp` sibling
already exists; otherwise transcode and persist the buffer iff
`webpSize < originalSize || !onlySmallerFiles`.  The second component tells
whether `fs.writeFileSync` ran. -/
def convertFile (webpExists : Bool) (encodeAt : Int → Bool → Nat)
    (originalSize : Nat) (cfg : WebpConverterConfig) : Outcome × Bool :=
  if webpExists then
    (Outcome.alreadyExists, false)
  else
    let r := transcode encodeAt originalSize cfg.quality cfg.minQuality
      cfg.lossless
    let webpSize := r.2
    if webpSize < originalSize ∨ cfg.onlySmallerFiles = false then
      (if webpSize < originalSize then
        Outcome.smaller (originalSize - webpSize)
       else Outcome.largerKept, true)
    else
      (Outcome.largerSkipped, false)

/-- If the encodes at `c, c-5, …, c-5(k-1)` are all not smaller, the encode
at `c - 5k` is smaller, and `c - 5k` is still within the floor, then the
loop entered at `currentQuality = c` stops with the buffer encoded at
`c - 5k`. -/
theorem searchLoop_first_smaller (encodeAt : Int → Bool → Nat)
    (originalSize : Nat) (minQuality : Int) :
    ∀ (k : Nat) (c : Int) (webpSize : Nat) (usedQuality : Int),
      originalSize ≤ webpSize →
      (∀ i : Nat, i < k → originalSize ≤ encodeAt (c - 5 * i) false) →
      encodeAt (c - 5 * k) false < originalSize →
      minQuality ≤ c - 5 * k →
      searchLoop encodeAt originalSize minQuality webpSize usedQuality c =
        (c - 5 * k, encodeAt (c - 5 * k) false) := by
  intro k
  induction k with
  | zero =>
    intro c webpSize usedQuality hws _hnot hsm hfloor
    simp only [Nat.cast_zero, mul_zero, sub_zero] at hsm hfloor ⊢
    rw [searchLoop_eq]
    rw [if_pos ⟨hws, hfloor⟩]
    rw [searchLoop_eq]
    rw [if_neg (by omega)]
  | succ k ih =>
    intro c webpSize usedQuality hws hnot hsm hfloor
    have hc5 : c - 5 - 5 * (k : Int) = c - 5 * ((k + 1 : Nat) : Int) := by
      push_cast; ring
    have hfloor' : minQuality ≤ c := by
      have := hfloor; push_cast at this ⊢; omega
    rw [searchLoop_eq, if_pos ⟨hws, hfloor'⟩]
    have h0 : originalSize ≤ encodeAt c false := by
      have := hnot 0 (by omega); simpa using this
    have hnot' : ∀ i : Nat, i < k →
        originalSize ≤ encodeAt (c - 5 - 5 * i) false := by
      intro i hi
      have e : c - 5 - 5 * (i : Int) = c - 5 * ((i + 1 : Nat) : Int) := by
        push_cast; ring
      rw [e]
      exact hnot (i + 1) (by omega)
    have := ih (c - 5) (encodeAt c false) c h0 hnot'
      (by rw [hc5]; exact hsm) (by rw [hc5]; exact hfloor)
    rw [this, hc5]

/-- C1: when `lossless = false` and the encodes at qualities
`quality, quality-5, …, quality-5k` are all not smaller than the original
while the encode at `quality - 5(k+1)` (still ≥ `minQuality`) is smaller,
the transcoder accepts exactly that first smaller attempt, and the
per-image converter writes it with outcome `Smaller`.  Instantiated at the
spec's example (quality 80, minQuality 60, sizes 110%/105%/98% of a
100-byte original) by the witness, giving accepted quality 70 and outcome
`Smaller`. -/
theorem quality_search_accepts_first_smaller
    (encodeAt : Int → Bool → Nat) (originalSize : Nat)
    (quality minQuality : Int)
    (onlySmaller processCss processImport : Bool) (k : Nat)
    (hnot : ∀ i : Nat, i ≤ k →
      originalSize ≤ encodeAt (quality - 5 * i) false)
    (hsm : encodeAt (quality - 5 * (k + 1)) false < originalSize)
    (hfloor : minQuality ≤ quality - 5 * (k + 1)) :
    transcode encodeAt originalSize quality minQuality false =
      (quality - 5 * (k + 1), encodeAt (quality - 5 * (k + 1)) false) ∧
    convertFile false encodeAt originalSize
        ⟨quality, false, onlySmaller, minQuality, processCss, processImport⟩ =
      (Outcome.smaller
        (originalSize - encodeAt (quality - 5 * (k + 1)) false), true) := by
  have h0 : originalSize ≤ encodeAt quality false := by
    have := hnot 0 (by omega); simpa using this
  have hq : minQuality < quality := by
    have := hfloor; push_cast at this; omega
  have hc5 : quality - 5 - 5 * (k : Int) = quality - 5 * ((k : Int) + 1) := by
    ring
  have htr : transcode encodeAt originalSize quality minQuality false =
      (quality - 5 * (k + 1), encodeAt (quality - 5 * (k + 1)) false) := by
    unfold transcode
    rw [if_pos ⟨h0, rfl, hq⟩]
    have hnot' : ∀ i : Nat, i < k →
        originalSize ≤ encodeAt (quality - 5 - 5 * i) false := by
      intro i hi
      have e : quality - 5 - 5 * (i : Int) =
          quality - 5 * ((i + 1 : Nat) : Int) := by push_cast; ring
      rw [e]
      exact hnot (i + 1) (by omega)
    have := searchLoop_first_smaller encodeAt originalSize minQuality
      k (quality - 5) (encodeAt quality false) quality h0 hnot'
      (by rw [hc5]; exact hsm) (by rw [hc5]; exact hfloor)
    rw [this, hc5]
  refine ⟨htr, ?_⟩
  unfold convertFile
  rw [if_neg (by simp)]
  simp only [htr]
  rw [if_pos (Or.inl hsm), if_pos hsm]

/-- Encoder of the spec's C1 example: at quality 80 the compact encoding is
110 bytes, at 75 it is 105, at 70 it is 98 (original: 100 bytes). -/
def exampleEncoder : Int → Bool → Nat := fun q _ =>
  if q = 80 then 110 else if q = 75 then 105 else if q = 70 then 98 else 200

/-- C1 witness: the spec example — policy `{quality:80, minQuality:60}`,
sizes 110% / 105% / 98% of the original at 80 / 75 / 70 — accepts quality
70 with outcome `Smaller`. -/
theorem quality_search_accepts_first_smaller_witness :
    transcode exampleEncoder 100 80 60 false = (70, 98) ∧
    convertFile false exampleEncoder 100
        ⟨80, false, true, 60, true, true⟩ = (Outcome.smaller 2, true) := by
  have h := quality_search_accepts_first_smaller exampleEncoder 100 80 60
    true true true 1
    (by decide) (by decide) (by decide)
  simpa using h

/-- C2: when the quality search exhausts without producing a buffer smaller
than the original (final size still `≥ originalSize`), no file is written
and the outcome is `LargerSkipped` under `onlySmallerFiles = true`, while
under `onlySmallerFiles = false` the last attempted buffer is written with
outcome `LargerKept`; in general the compact file is persisted iff
`compactSize < originalSize` or `onlySmallerFiles` is false. -/
theorem exhausted_search_persistence
    (encodeAt : Int → Bool → Nat) (originalSize : Nat)
    (cfg : WebpConverterConfig)
    (hno : originalSize ≤ (transcode encodeAt originalSize cfg.quality
      cfg.minQuality cfg.lossless).2) :
    convertFile false encodeAt originalSize cfg =
      (if cfg.onlySmallerFiles then (Outcome.largerSkipped, false)
       else (Outcome.largerKept, true)) ∧
    (convertFile false encodeAt originalSize cfg).2 =
      (decide ((transcode encodeAt originalSize cfg.quality cfg.minQuality
        cfg.lossless).2 < originalSize) || !cfg.onlySmallerFiles) := by
  have hlt : ¬ (transcode encodeAt originalSize cfg.quality cfg.minQuality
      cfg.lossless).2 < originalSize := not_lt.mpr hno
  unfold convertFile
  rw [if_neg (by simp)]
  cases hos : cfg.onlySmallerFiles with
  | true =>
    rw [if_neg (by simp [hlt, hos])]
    simp [hlt]
  | false =>
    rw [if_pos (Or.inr rfl)]
    simp [hlt]

/-- Encoder whose output is 120 bytes at every quality: the search exhausts
down to the floor without ever shrinking a 100-byte original. -/
def exhaustEncoder : Int → Bool → Nat := fun _ _ => 120

/-- C2 witness: with `quality = 80`, `minQuality = 70` and a 100-byte
original that encodes to 120 bytes at every quality, the exhausted search
skips the file when `onlySmallerFiles = true` and keeps the larger file
when `onlySmallerFiles = false`. -/
theorem exhausted_search_persistence_witness :
    100 ≤ (transcode exhaustEncoder 100 80 70 false).2 ∧
    convertFile false exhaustEncoder 100 ⟨80, false, true, 70, true, true⟩ =
      (Outcome.largerSkipped, false) ∧
    convertFile false exhaustEncoder 100 ⟨80, false, false, 70, true, true⟩ =
      (Outcome.largerKept, true) := by
  have htr : transcode exhaustEncoder 100 80 70 false = (70, 120) := by
    simp [transcode, exhaustEncoder, searchLoop_eq]
  have h1 := exhausted_search_persistence exhaustEncoder 100
    ⟨80, false, true, 70, true, true⟩ (by rw [htr]; norm_num)
  have h2 := exhausted_search_persistence exhaustEncoder 100
    ⟨80, false, false, 70, true, true⟩ (by rw [htr]; norm_num)
  refine ⟨by rw [htr]; norm_num, ?_, ?_⟩
  · simpa using h1.1
  · simpa using h2.1

/-- C9 counterexample: the configuration `{quality: 50, minQuality: 90}`
(violating `minQuality ≤ quality`) is accepted by the schema/merge — which
contains no cross-field constraint — and the pipeline then runs normally,
converting a 100-byte image to a 90-byte compact file with outcome
`Smaller`; no fatal configuration error exists. -/
theorem inverted_policy_accepted_and_runs :
    mergeConfig { quality := some 50, minQuality := some 90 } =
      ⟨50, false, true, 90, true, true⟩ ∧
    convertFile false (fun _ _ => 90) 100 ⟨50, false, true, 90, true, true⟩ =
      (Outcome.smaller 10, true) := by
  exact ⟨rfl, rfl⟩

/-- C9 (amended): the plugin performs no startup validation of
`minQuality ≤ quality`; with an inverted policy the converter still runs
and simply never enters the quality-reduction loop, returning the single
encode at the configured quality. -/
theorem inverted_policy_single_encode
    (encodeAt : Int → Bool → Nat) (originalSize : Nat)
    (quality minQuality : Int) (lossless : Bool)
    (h : ¬ minQuality < quality) :
    transcode encodeAt originalSize quality minQuality lossless =
      (quality, encodeAt quality lossless) := by
  unfold transcode
  rw [if_neg fun hc => h hc.2.2]

/-- C9 amended witness: quality 50 with floor 90 encodes exactly once. -/
theorem inverted_policy_single_encode_witness :
    transcode exhaustEncoder 100 50 90 false = (50, 120) := by
  have h := inverted_policy_single_encode exhaustEncoder 100 50 90 false
    (by decide)
  simpa using h

/-!
### Stylesheet rewriter (`processCssFiles` of part_004, the
attribute-selector variant; `isMultipleBackground` is identical in
css-processor.ts)

Text is modelled as `List Char`; braces are written `\x7b`/`\x7d` and the
single quote `\x27`.  The scanning functions mirror the JS regex semantics
of the concrete patterns used by the source: regex searches advance one
character on a failed match attempt and continue after the end of a
successful one; the fuel argument (always instantiated with the length of
the scanned list, which bounds the number of scanning steps) only makes the
recursion structural.
-/

/-- ASCII lower-casing, as performed by the `i` regex flag on the
characters involved. -/
def lowerChar (c : Char) : Char :=
  if 'A' ≤ c ∧ c ≤ 'Z' then Char.ofNat (c.toNat + 32) else c

/-- The characters accepted by the regex class `['"]`. -/
def isQuoteChar (c : Char) : Bool := c == '"' || c == '\x27'

/-- `true` iff `p` ends (case-insensitively) with `suf`. -/
def hasSuffixCI (suf : String) (p : List Char) : Bool :=
  suf.toList.isSuffixOf (p.map lowerChar)

/-- The tail `([^'")]+)\.(jpe?g|png)` of the url regex: the captured path
must end with an image extension (case-insensitive) preceded by at least
one more character. -/
def hasImageExtCI (p : List Char) : Bool :=
  (hasSuffixCI ".jpeg" p && decide (5 < p.length)) ||
  (hasSuffixCI ".jpg" p && decide (4 < p.length)) ||
  (hasSuffixCI ".png" p && decide (4 < p.length))

/-- `imgPath.replace(/\.(jpe?g|png)$/i, ".webp")`. -/
def webpizeCssPath (p : List Char) : List Char :=
  if hasSuffixCI ".jpeg" p then p.take (p.length - 5) ++ ".webp".toList
  else if hasSuffixCI ".jpg" p || hasSuffixCI ".png" p then
    p.take (p.length - 4) ++ ".webp".toList
  else p

/-- Match the regex `url\(['"]?([^'")]+\.(jpe?g|png))['"]?\)` (flags `gi`)
at the head of `s`.  Returns the length of the matched opening (`url(`
plus an optional quote), the captured image path, and the length of the
matched closing (`)` with an optional preceding quote).  The quantifiers
are forced here: the optional quote must be taken when present (the path
class excludes quotes) and the path run must extend to the first quote,
double quote or closing parenthesis. -/
def matchUrlAt (s : List Char) : Option (Nat × List Char × Nat) :=
  match s with
  | u :: r :: l :: par :: rest =>
    if lowerChar u == 'u' && lowerChar r == 'r' && lowerChar l == 'l'
        && par == '(' then
      let (openLen, rest1) :=
        match rest with
        | c :: t => if isQuoteChar c then (5, t) else (4, rest)
        | [] => (4, ([] : List Char))
      let p := rest1.takeWhile (fun c => !(isQuoteChar c || c == ')'))
      let after := rest1.drop p.length
      if p != [] && hasImageExtCI p then
        match after with
        | ')' :: _ => some (openLen, p, 1)
        | c :: d :: _ =>
          if isQuoteChar c && d == ')' then some (openLen, p, 2) else none
        | _ => none
      else none
    else none
  | _ => none

/-- Number of (non-overlapping) occurrences of the literal `url(`
(case-sensitive: the regex in `isMultipleBackground` carries no `i`
flag). -/
def countUrlOcc : List Char → Nat
  | 'u' :: 'r' :: 'l' :: '(' :: rest => countUrlOcc rest + 1
  | _ :: rest => countUrlOcc rest
  | [] => 0

/-- The lookahead `[^(]*\)` of the comma regex: some `)` occurs with no
`(` before it. -/
def hasCloseBeforeOpen : List Char → Bool
  | [] => false
  | ')' :: _ => true
  | '(' :: _ => false
  | _ :: rest => hasCloseBeforeOpen rest

/-- `/,(?![^(]*\))/.test rule`: some comma is *not* followed by a `)`
reachable without crossing a `(`. -/
def commaOutsideFunctions : List Char → Bool
  | [] => false
  | ',' :: rest => !hasCloseBeforeOpen rest || commaOutsideFunctions rest
  | _ :: rest => commaOutsideFunctions rest

/-- `isMultipleBackground` of the source: more than one `url(` occurrence,
or a comma outside any function-call parentheses. -/
def isMultipleBackground (rule : List Char) : Bool :=
  if countUrlOcc rule > 1 then true else commaOutsideFunctions rule

/-- `while (startPos > 0 && cssContent[startPos] !== "{") startPos--`. -/
def backToBrace (orig : List Char) : Nat → Nat
  | 0 => 0
  | j + 1 =>
    if orig.getD (j + 1) ' ' == '\x7b' then j + 1 else backToBrace orig j

/-- `while (endPos < length && cssContent[endPos] !== "}") endPos++`. -/
def forwardToClose (orig : List Char) (offset : Nat) : Nat :=
  offset + ((orig.drop offset).takeWhile (fun c => c != '\x7d')).length

/-- `cssContent.substring(startPos + 1, endPos)` — the rule block text
around the match at `offset` (computed, as in the source, against the
content as it was before the replacement pass started). -/
def currentRuleAt (orig : List Char) (offset : Nat) : List Char :=
  (orig.take (forwardToClose orig offset)).drop (backToBrace orig offset + 1)

def placeholderLit : List Char := "__WEBP_PLACEHOLDER__".toList

def dUnd : List Char := "__".toList

def startsWithStr (pre : String) (p : List Char) : Bool :=
  pre.toList.isPrefixOf p

def endsWithStr (suf : String) (p : List Char) : Bool :=
  suf.toList.isSuffixOf p

/-- The replacement callback of the url regex pass: keep the match for
compact/data-URI/remote paths and for multi-background rules, otherwise
encode the reference as `__WEBP_PLACEHOLDER__<original>__<webp>__`. -/
def urlReplacement (orig : List Char) (offset : Nat)
    (matchStr imgPath : List Char) : List Char :=
  if endsWithStr ".webp" imgPath || startsWithStr "data:" imgPath
      || startsWithStr "http://" imgPath
      || startsWithStr "https://" imgPath then
    matchStr
  else if isMultipleBackground (currentRuleAt orig offset) then
    matchStr
  else
    placeholderLit ++ imgPath ++ dUnd ++ webpizeCssPath imgPath ++ dUnd

/-- The global url-regex replacement pass (`cssContent.replace(urlRegex,
cb)`): `i` is the offset in the original content, `orig` the original
content used by the callback for rule extraction. -/
def replaceUrlsAux (orig : List Char) : Nat → Nat → List Char → List Char
  | 0, _, l => l
  | _ + 1, _, [] => []
  | fuel + 1, i, c :: rest =>
    match matchUrlAt (c :: rest) with
    | some (openLen, p, closeLen) =>
      let len := openLen + p.length + closeLen
      urlReplacement orig i ((c :: rest).take len) p
        ++ replaceUrlsAux orig fuel (i + len) ((c :: rest).drop len)
    | none => c :: replaceUrlsAux orig fuel (i + 1) rest

def replaceUrls (content : List Char) : List Char :=
  replaceUrlsAux content content.length 0 content

/-- Match `__WEBP_PLACEHOLDER__([^_]+)__([^_]+)__` at the head of `s`;
both captures are forced to be the maximal underscore-free runs. -/
def matchPlaceholderAt (s : List Char) : Option (List Char × List Char) :=
  if placeholderLit.isPrefixOf s then
    let t := s.drop 20
    let g1 := t.takeWhile (fun c => c != '_')
    let t1 := t.drop g1.length
    if g1 != [] && dUnd.isPrefixOf t1 then
      let t2 := t1.drop 2
      let g2 := t2.takeWhile (fun c => c != '_')
      let t3 := t2.drop g2.length
      if g2 != [] && dUnd.isPrefixOf t3 then some (g1, g2) else none
    else none
  else none

/-- The placeholder-collection loop (`placeholderRegex.exec` until
exhaustion). -/
def collectAux : Nat → List Char → List (List Char × List Char)
  | 0, _ => []
  | _ + 1, [] => []
  | fuel + 1, c :: rest =>
    match matchPlaceholderAt (c :: rest) with
    | some (g1, g2) =>
      (g1, g2) :: collectAux fuel ((c :: rest).drop (24 + g1.length + g2.length))
    | none => collectAux fuel rest

def collectPlaceholders (l : List Char) : List (List Char × List Char) :=
  collectAux l.length l

/-- `cssContent.replace(placeholderRegex, "url(\"$1\")")`. -/
def replAux : Nat → List Char → List Char
  | 0, l => l
  | _ + 1, [] => []
  | fuel + 1, c :: rest =>
    match matchPlaceholderAt (c :: rest) with
    | some (g1, g2) =>
      "url(\"".toList ++ g1 ++ "\")".toList
        ++ replAux fuel ((c :: rest).drop (24 + g1.length + g2.length))
    | none => c :: replAux fuel rest

def replacePlaceholders (l : List Char) : List Char := replAux l.length l

/-- The path part `['"]?path['"]?\)` of the selector regex, tried at `s`
(quote-consuming alternative first, as the regex engine would). -/
def checkPathAt (path s : List Char) : Bool :=
  path.isPrefixOf s &&
    (match s.drop path.length with
     | ')' :: _ => true
     | c :: d :: _ => isQuoteChar c && d == ')'
     | _ => false)

def checkPathClose (path : List Char) (s : List Char) : Bool :=
  match s with
  | c :: t =>
    if isQuoteChar c then checkPathAt path t || checkPathAt path (c :: t)
    else checkPathAt path (c :: t)
  | [] => checkPathAt path []

/-- Does a brace-free block contain `url\(['"]?path['"]?\)`? -/
def blockHasUrlPath (path : List Char) : List Char → Bool
  | 'u' :: 'r' :: 'l' :: '(' :: rest =>
    checkPathClose path rest || blockHasUrlPath path rest
  | _ :: rest => blockHasUrlPath path rest
  | [] => false

/-- The selector-regex scan
`([^{}]+{[^{}]*url\(['"]?path['"]?\)[^{}]*})` with flag `g` over the
original content: `pre` holds the brace-free run preceding the next `{`;
a block matches when that run is nonempty and the block body (brace-free,
ended by `}`) contains the url reference.  A `{` met before the block
closes restarts the leading run at the inner brace, as regex backtracking
would. -/
def findRulesAux (path : List Char) :
    Nat → List Char → List Char → List (List Char)
  | 0, _, _ => []
  | _ + 1, _, [] => []
  | fuel + 1, pre, c :: rest =>
    if c == '\x7d' then findRulesAux path fuel [] rest
    else if c == '\x7b' then
      let b := rest.takeWhile (fun d => d != '\x7b' && d != '\x7d')
      let after := rest.drop b.length
      match after with
      | d :: rest2 =>
        if d == '\x7d' then
          if pre != [] && blockHasUrlPath path b then
            (pre ++ '\x7b' :: b ++ ['\x7d']) :: findRulesAux path fuel [] rest2
          else findRulesAux path fuel [] rest2
        else findRulesAux path fuel b (d :: rest2)
      | [] => []
    else findRulesAux path fuel (pre ++ [c]) rest

def findRules (path orig : List Char) : List (List Char) :=
  findRulesAux path orig.length [] orig

def isJsSpace (c : Char) : Bool :=
  c == ' ' || c == '\t' || c == '\n' || c == '\r'

/-- `String.prototype.trim` on the whitespace actually occurring here. -/
def trimChars (l : List Char) : List Char :=
  ((l.dropWhile isJsSpace).reverse.dropWhile isJsSpace).reverse

/-- `fullRule.substring(0, fullRule.indexOf("{")).trim()`. -/
def selectorOf (fullRule : List Char) : List Char :=
  trimChars (fullRule.takeWhile (fun c => c != '\x7b'))

def cssHeader : List Char :=
  "\n\n\x2f* WebP支持检测和替换 - 使用CSS变量方案 *\x2f\n".toList

def yesOpen : List Char := "html[data-webp-support=\"yes\"] \x7b\n".toList

def noOpen : List Char := "html[data-webp-support=\"no\"] \x7b\n".toList

def bgLine (sel path : List Char) : List Char :=
  "  ".toList ++ sel ++ " \x7b background-image: url(\"".toList
    ++ path ++ "\"); \x7d\n".toList

def blockEnd : List Char := "\x7d\n\n".toList

/-- The fallback blocks appended for one collected replacement: one
`yes`/`no` pair per rule of the *original* content matched by the selector
regex. -/
def appendixFor (orig : List Char) (rep : List Char × List Char) :
    List Char :=
  ((findRules rep.1 orig).map (fun fr =>
    let sel := selectorOf fr
    yesOpen ++ bgLine sel rep.2 ++ blockEnd
      ++ noOpen ++ bgLine sel rep.1 ++ blockEnd)).flatten

/-- One stylesheet through `processCssFiles`: the returned flag tells
whether `fs.writeFileSync` ran (it runs iff at least one placeholder was
collected); when it did not run the content on disk stays the original. -/
def processCss (content : List Char) : List Char × Bool :=
  let afterUrl := replaceUrls content
  let reps := collectPlaceholders afterUrl
  if reps.length > 0 then
    (replacePlaceholders afterUrl ++ cssHeader
      ++ (reps.map (appendixFor content)).flatten, true)
  else
    (content, false)

/-- JS `String.prototype.includes`: `needle` occurs as a contiguous
segment. -/
def containsSeg (needle : List Char) : List Char → Bool
  | [] => needle.isEmpty
  | c :: rest => needle.isPrefixOf (c :: rest) || containsSeg needle rest

/-- C4: a url() reference whose enclosing rule block contains more than one
`url(` occurrence, or a comma outside any function-call parentheses, is
classified multi-background and left unrewritten — the replacement callback
returns the original match for every stylesheet, offset and path. -/
theorem multi_background_never_rewritten
    (orig : List Char) (offset : Nat) (matchStr imgPath : List Char)
    (h : countUrlOcc (currentRuleAt orig offset) > 1 ∨
      commaOutsideFunctions (currentRuleAt orig offset) = true) :
    urlReplacement orig offset matchStr imgPath = matchStr := by
  have hm : isMultipleBackground (currentRuleAt orig offset) = true := by
    unfold isMultipleBackground
    rcases h with h | h
    · rw [if_pos h]
    · split
      · rfl
      · exact h
  unfold urlReplacement
  split
  · rfl
  · simp [hm]

/-- Stylesheet with a rule declaring two background layers. -/
def multiBgCss : List Char :=
  ".a\x7bbackground:url(a.jpg),url(b.jpg)\x7d".toList

/-- C4 witness: in `.a{background:url(a.jpg),url(b.jpg)}` the rule around
the first reference (offset 14) has two `url(` occurrences and the
callback keeps the original match text. -/
theorem multi_background_never_rewritten_witness :
    (countUrlOcc (currentRuleAt multiBgCss 14) > 1 ∨
      commaOutsideFunctions (currentRuleAt multiBgCss 14) = true) ∧
    urlReplacement multiBgCss 14 "url(a.jpg)".toList "a.jpg".toList =
      "url(a.jpg)".toList :=
  ⟨Or.inl (by decide),
    multi_background_never_rewritten multiBgCss 14 "url(a.jpg)".toList
      "a.jpg".toList (Or.inl (by decide))⟩

/-- The stylesheet rule of the spec's C5 example. -/
def bannerCss : List Char :=
  ".banner \x7b background-image: url(images/a.jpg); \x7d".toList

/-- C5 counterexample: the rewrite is *not* byte-for-byte additive — for
the spec's own example rule the written output does not contain the
original rule block at all (its unquoted `url(images/a.jpg)` reference is
replaced by the double-quoted `url("images/a.jpg")`), even though the file
is written. -/
theorem original_rule_not_in_output :
    (processCss bannerCss).2 = true ∧
    containsSeg bannerCss (processCss bannerCss).1 = false := by
  decide

/-- C5 (amended): the rewrite keeps the original rule structure but
normalizes each rewritten reference to a double-quoted
`url("<path>")`, and appends the fallback `yes`/`no` pair (selector
`.banner`, paths `images/a.webp` / `images/a.jpg`) after the content; the
output for the example rule is exactly this text. -/
theorem rewrite_normalizes_and_appends :
    processCss bannerCss =
      (".banner \x7b background-image: url(\"images/a.jpg\"); \x7d\n\n\x2f* WebP支持检测和替换 - 使用CSS变量方案 *\x2f\nhtml[data-webp-support=\"yes\"] \x7b\n  .banner \x7b background-image: url(\"images/a.webp\"); \x7d\n\x7d\n\nhtml[data-webp-support=\"no\"] \x7b\n  .banner \x7b background-image: url(\"images/a.jpg\"); \x7d\n\x7d\n\n".toList,
        true) := by
  decide

/-- Minimal stylesheet for the idempotence counterexample. -/
def idemCss : List Char := ".a\x7bbackground:url(a.jpg)\x7d".toList

/-- C3 counterexample: a second full pass over the unchanged output tree is
*not* write-free — after the first pass rewrote the stylesheet, the second
pass matches the same (still present) references again and writes the
stylesheet file a second time. -/
theorem second_pass_rewrites_stylesheet :
    (processCss idemCss).2 = true ∧
    (processCss (processCss idemCss).1).2 = true := by
  decide

/-- C3 (amended): an image candidate whose compact variant already exists
on disk is excluded from reconversion — the converter returns
`AlreadyExists` without encoding or writing anything, for every encoder,
size and policy; stylesheet files, however, are written again on a second
pass (here on the example rule), since the rewritten references still
match. -/
theorem existing_variant_excluded :
    (∀ (encodeAt : Int → Bool → Nat) (originalSize : Nat)
      (cfg : WebpConverterConfig),
      convertFile true encodeAt originalSize cfg =
        (Outcome.alreadyExists, false)) ∧
    (processCss (processCss bannerCss).1).2 = true := by
  exact ⟨fun _ _ _ => rfl, by decide⟩

/-! ### The placeholder round-trip (C10) -/

/-- `__WEBP_PLACEHOLDER__<o>__<w>__`, the encoding emitted by the url
replacement callback. -/
def placeholderText (o w : List Char) : List Char :=
  placeholderLit ++ o ++ dUnd ++ w ++ dUnd

/-- `url("<o>")`, the decoding of one placeholder. -/
def urlQuoted (o : List Char) : List Char :=
  "url(\"".toList ++ o ++ "\")".toList

theorem isPrefixOf_append_self (l r : List Char) :
    l.isPrefixOf (l ++ r) = true := by
  induction l with
  | nil => simp [List.isPrefixOf]
  | cons c t ih => simp [List.isPrefixOf, ih]

theorem takeWhile_append_all {p : Char → Bool} (l r : List Char)
    (h : ∀ c ∈ l, p c = true) :
    (l ++ r).takeWhile p = l ++ r.takeWhile p := by
  induction l with
  | nil => simp
  | cons c t ih =>
    have hc : p c = true := h c (by simp)
    have ht : ∀ d ∈ t, p d = true := fun d hd => h d (by simp [hd])
    simp [List.takeWhile_cons, hc, ih ht]

theorem takeWhile_append_stop {p : Char → Bool} (l r : List Char)
    (h : ∃ c ∈ l, p c = false) :
    (l ++ r).takeWhile p = l.takeWhile p := by
  induction l with
  | nil => simp at h
  | cons c t ih =>
    rcases h with ⟨d, hd, hpd⟩
    rcases List.mem_cons.mp hd with rfl | hdt
    · simp [List.takeWhile_cons, hpd]
    · by_cases hc : p c
      · simp only [List.cons_append, List.takeWhile_cons, hc]
        rw [ih ⟨d, hdt, hpd⟩]
      · simp [List.takeWhile_cons, hc]

theorem mem_all_bne_underscore {o : List Char} (h : '_' ∉ o) :
    ∀ c ∈ o, (c != '_') = true := by
  intro c hc
  exact bne_iff_ne.mpr (fun he => h (he ▸ hc))

theorem underscore_split (o : List Char) (h : '_' ∈ o) :
    ∃ b, o = o.takeWhile (fun c => c != '_') ++ '_' :: b := by
  induction o with
  | nil => simp at h
  | cons c t ih =>
    by_cases hc : c = '_'
    · subst hc
      exact ⟨t, by simp [List.takeWhile_cons]⟩
    · have ht : '_' ∈ t := by
        rcases List.mem_cons.mp h with he | ht
        · exact absurd he.symm hc
        · exact ht
      rcases ih ht with ⟨b, hb⟩
      refine ⟨b, ?_⟩
      rw [List.takeWhile_cons, if_pos (bne_iff_ne.mpr hc)]
      exact congrArg (c :: ·) hb

theorem matchPlaceholderAt_some_eq {s g1 g2 : List Char}
    (h : matchPlaceholderAt s = some (g1, g2)) :
    g1 = (s.drop 20).takeWhile (fun c => c != '_') ∧
    g2 = (((s.drop 20).drop g1.length).drop 2).takeWhile
      (fun c => c != '_') := by
  simp only [matchPlaceholderAt] at h
  split at h
  · split at h
    · split at h
      · rw [Option.some.injEq, Prod.mk.injEq] at h
        refine ⟨h.1.symm, ?_⟩
        rw [← h.1]
        exact h.2.symm
      · exact absurd h (by simp)
    · exact absurd h (by simp)
  · exact absurd h (by simp)

theorem matchPlaceholderAt_clean (o w : List Char) (ho : o ≠ [])
    (hw : w ≠ []) (ho' : '_' ∉ o) (hw' : '_' ∉ w) :
    matchPlaceholderAt (placeholderText o w) = some (o, w) := by
  have hdu : dUnd = ['_', '_'] := by decide
  have hsplit : placeholderText o w =
      placeholderLit ++ (o ++ ('_' :: '_' :: (w ++ ['_', '_']))) := by
    simp [placeholderText, hdu, List.append_assoc]
  have h20 : placeholderLit.length = 20 := by decide
  have hd20 : (placeholderText o w).drop 20 =
      o ++ ('_' :: '_' :: (w ++ ['_', '_'])) := by
    rw [hsplit]
    exact List.drop_left' h20
  have htk1 : ((o ++ ('_' :: '_' :: (w ++ ['_', '_']))).takeWhile
      (fun c => c != '_')) = o := by
    rw [takeWhile_append_all _ _ (mem_all_bne_underscore ho')]
    simp [List.takeWhile_cons]
  have htk2 : ((w ++ ['_', '_']).takeWhile (fun c => c != '_')) = w := by
    rw [takeWhile_append_all _ _ (mem_all_bne_underscore hw')]
    simp [List.takeWhile_cons]
  simp only [matchPlaceholderAt, hd20, htk1, htk2]
  rw [hsplit, isPrefixOf_append_self]
  simp only [if_true]
  rw [List.drop_left]
  simp only [List.drop_succ_cons, List.drop_zero, htk2]
  rw [List.drop_left]
  have hob : (o != ([] : List Char)) = true := by
    cases o with
    | nil => exact absurd rfl ho
    | cons c t => rfl
  have hwb : (w != ([] : List Char)) = true := by
    cases w with
    | nil => exact absurd rfl hw
    | cons c t => rfl
  simp [hob, hwb, List.isPrefixOf]

theorem replAux_nil : ∀ fuel : Nat, replAux fuel [] = [] := by
  intro fuel
  cases fuel <;> rfl

theorem replAux_step_some {l g1 g2 : List Char} (fuel : Nat)
    (hl : l ≠ []) (h : matchPlaceholderAt l = some (g1, g2)) :
    replAux (fuel + 1) l =
      "url(\"".toList ++ g1 ++ "\")".toList
        ++ replAux fuel (l.drop (24 + g1.length + g2.length)) := by
  cases l with
  | nil => exact absurd rfl hl
  | cons c cs => simp [replAux, h]

theorem replAux_step_none {c : Char} {cs : List Char} (fuel : Nat)
    (h : matchPlaceholderAt (c :: cs) = none) :
    replAux (fuel + 1) (c :: cs) = c :: replAux fuel cs := by
  simp [replAux, h]

theorem replAux_ne_nil : ∀ (fuel : Nat) (l : List Char), l ≠ [] →
    replAux fuel l ≠ [] := by
  intro fuel l hl
  cases fuel with
  | zero => simpa [replAux] using hl
  | succ f =>
    cases l with
    | nil => exact absurd rfl hl
    | cons c cs =>
      cases h : matchPlaceholderAt (c :: cs) with
      | none => rw [replAux_step_none f h]; simp
      | some g =>
        rw [replAux_step_some f (by simp) (by rw [h])]
        simp

theorem placeholderText_length (o w : List Char) :
    (placeholderText o w).length = 24 + o.length + w.length := by
  have h20 : placeholderLit.length = 20 := by decide
  have h2 : dUnd.length = 2 := by decide
  simp [placeholderText, List.length_append, h20, h2]
  omega

theorem placeholderText_ne_nil (o w : List Char) :
    placeholderText o w ≠ [] := by
  intro h
  have := congrArg List.length h
  rw [placeholderText_length] at this
  simp at this

/-- Stylesheet mixing an underscore-free eligible path with one containing
an underscore. -/
def mixedCss : List Char :=
  ".a\x7bbackground:url(x.jpg)\x7d.b\x7bbackground:url(im_g.jpg)\x7d".toList

/-- C10: the placeholder round-trip decodes
`__WEBP_PLACEHOLDER__<o>__<w>__` back to a `url("<o>")` reference exactly
when neither the original path nor the derived compact path contains an
underscore; and for a stylesheet holding one underscore-free eligible path
next to one with an underscore, the written output keeps the literal
placeholder text of the underscore path instead of a url() reference. -/
theorem placeholder_roundtrip :
    (∀ o w : List Char, o ≠ [] → w ≠ [] →
      (replacePlaceholders (placeholderText o w) = urlQuoted o ↔
        ('_' ∉ o ∧ '_' ∉ w))) ∧
    ((processCss mixedCss).2 = true ∧
      containsSeg "__WEBP_PLACEHOLDER__im_g.jpg__im_g.webp__".toList
        (processCss mixedCss).1 = true ∧
      containsSeg (urlQuoted "im_g.jpg".toList)
        (processCss mixedCss).1 = false) := by
  constructor
  · intro o w ho hw
    have hdu : dUnd = ['_', '_'] := by decide
    have hsplit : placeholderText o w =
        placeholderLit ++ (o ++ ('_' :: '_' :: (w ++ ['_', '_']))) := by
      simp [placeholderText, hdu, List.append_assoc]
    have h20 : placeholderLit.length = 20 := by decide
    have hd20 : (placeholderText o w).drop 20 =
        o ++ ('_' :: '_' :: (w ++ ['_', '_'])) := by
      rw [hsplit]
      exact List.drop_left' h20
    have hne := placeholderText_ne_nil o w
    obtain ⟨m, hm⟩ : ∃ m, (placeholderText o w).length = m + 1 :=
      ⟨23 + o.length + w.length, by rw [placeholderText_length]; omega⟩
    constructor
    · -- decoding restored the reference, show the paths are clean
      intro heq
      by_contra hnot
      rw [show replacePlaceholders (placeholderText o w) =
        replAux ((placeholderText o w).length) (placeholderText o w)
        from rfl, hm] at heq
      cases hmatch : matchPlaceholderAt (placeholderText o w) with
      | none =>
        have hcons : placeholderText o w =
            '_' :: ('_' :: ("WEBP_PLACEHOLDER__".toList
              ++ (o ++ ('_' :: '_' :: (w ++ ['_', '_']))))) := by
          rw [hsplit]; rfl
        rw [hcons] at hmatch
        rw [hcons, replAux_step_none m hmatch] at heq
        have hu : urlQuoted o =
            'u' :: ("rl(\"".toList ++ (o ++ "\")".toList)) := rfl
        rw [hu] at heq
        injection heq with h1 _
        exact absurd h1 (by decide)
      | some g =>
        rcases g with ⟨g1, g2⟩
        rw [replAux_step_some m hne hmatch] at heq
        rcases matchPlaceholderAt_some_eq hmatch with ⟨hg1, hg2⟩
        rw [hd20] at hg1 hg2
        by_cases huo : '_' ∈ o
        · -- the original path has an underscore: the capture is a proper
          -- prefix and the decoded text diverges at the quote
          rcases underscore_split o huo with ⟨b, hob⟩
          have hg1a : g1 = o.takeWhile (fun c => c != '_') := by
            rw [hg1]
            exact takeWhile_append_stop o _ ⟨'_', huo, by decide⟩
          rw [hg1a] at heq
          rw [show urlQuoted o = "url(\"".toList ++ (o ++ "\")".toList)
            from by simp [urlQuoted]] at heq
          simp only [List.append_assoc] at heq
          have heq2 := List.append_cancel_left heq
          set a := o.takeWhile (fun c => c != '_') with ha
          rw [hob] at heq2
          rw [show ("\")".toList : List Char) = '"' :: [')'] from rfl]
            at heq2
          simp only [List.cons_append, List.nil_append, List.append_assoc]
            at heq2
          have heq3 := List.append_cancel_left heq2
          injection heq3 with hc _
          exact absurd hc (by decide)
        · -- the compact path has the underscore: the match ends early and
          -- decoded text is strictly longer than url("<o>")
          have huw : '_' ∈ w := by
            rcases not_and_or.mp hnot with h | h
            · exact absurd huo (by simpa using h)
            · simpa using h
          have hg1o : g1 = o := by
            rw [hg1, takeWhile_append_all o _ (mem_all_bne_underscore huo)]
            simp [List.takeWhile_cons]
          rw [hg1o] at heq
          rcases underscore_split w huw with ⟨bw, hwb⟩
          have hg2a : g2 = w.takeWhile (fun c => c != '_') := by
            rw [hg2, hg1o, List.drop_left]
            simp only [List.drop_succ_cons, List.drop_zero]
            exact takeWhile_append_stop w _ ⟨'_', huw, by decide⟩
          have hlw : g2.length < w.length := by
            rw [hg2a]
            conv_rhs => rw [hwb]
            simp [List.length_append]
          have hrest : (placeholderText o w).drop
              (24 + o.length + g2.length) ≠ [] := by
            intro hnil
            have hnl := congrArg List.length hnil
            rw [List.length_drop, placeholderText_length] at hnl
            simp only [List.length_nil] at hnl
            omega
          rw [show urlQuoted o = "url(\"".toList ++ (o ++ "\")".toList)
            from by simp [urlQuoted]] at heq
          simp only [List.append_assoc] at heq
          have heq2 := List.append_cancel_left heq
          have heq3 := List.append_cancel_left heq2
          have heq4 : ("\")".toList : List Char)
              ++ replAux m ((placeholderText o w).drop
                (24 + o.length + g2.length)) =
              "\")".toList ++ ([] : List Char) := by
            rw [List.append_nil]
            exact heq3
          have := List.append_cancel_left heq4
          exact replAux_ne_nil m _ hrest this
    · -- clean paths decode to the original reference
      rintro ⟨ho', hw'⟩
      have hmatch := matchPlaceholderAt_clean o w ho hw ho' hw'
      rw [show replacePlaceholders (placeholderText o w) =
        replAux ((placeholderText o w).length) (placeholderText o w)
        from rfl, hm]
      rw [replAux_step_some m hne hmatch]
      have hdrop : (placeholderText o w).drop
          (24 + o.length + w.length) = [] := by
        rw [← placeholderText_length o w]
        exact List.drop_length _
      rw [hdrop, replAux_nil]
      simp [urlQuoted]
  · decide

/-- C10 witness: the underscore-free pair `a.jpg` / `a.webp` decodes back
to `url("a.jpg")`. -/
theorem placeholder_roundtrip_witness :
    "a.jpg".toList ≠ ([] : List Char) ∧
    replacePlaceholders (placeholderText "a.jpg".toList "a.webp".toList) =
      urlQuoted "a.jpg".toList :=
  ⟨by decide,
    (placeholder_roundtrip.1 "a.jpg".toList "a.webp".toList (by decide)
      (by decide)).mpr ⟨by decide, by decide⟩⟩

/-!
### Source reference rewriter (`webpack-import-loader.ts`)

The loader scans the source with four fixed regexes (import/require ×
single/double quotes), resolves each import, converts the image in
production, and patches `modifiedSource` by replacing the first occurrence
of the matched statement text.  `LoaderEnv` abstracts the host facilities
(webpack `resolve`, `fs.existsSync`, the byte sizes seen by `sharp`); the
conversion logic itself reuses `transcode`.  The development branch only
strips `!webp` markers.
-/

/-- `importPath.replace(/!webp$/, "")`. -/
def stripWebpMark (p : List Char) : List Char :=
  if "!webp".toList.isSuffixOf p then p.take (p.length - 5) else p

/-- The capture tail `([^<q>]+)\.(?:jpe?g|png)(?:!webp)?` (case-sensitive,
at least one character before the dot). -/
def importPathOk (p : List Char) : Bool :=
  (endsWithStr ".jpg" (stripWebpMark p)
      && decide (4 < (stripWebpMark p).length)) ||
  (endsWithStr ".jpeg" (stripWebpMark p)
      && decide (5 < (stripWebpMark p).length)) ||
  (endsWithStr ".png" (stripWebpMark p)
      && decide (4 < (stripWebpMark p).length))

/-- `path.replace(/\.(jpg|jpeg|png)$/, ".webp")`. -/
def webpizeImportPath (p : List Char) : List Char :=
  if endsWithStr ".jpg" p || endsWithStr ".png" p then
    p.take (p.length - 4) ++ ".webp".toList
  else if endsWithStr ".jpeg" p then
    p.take (p.length - 5) ++ ".webp".toList
  else p

/-- Match `import\s+([^\s]+)\s+from\s+<q>(…)<q>` at the head of `s` for
quote character `q`; returns the bound name, the captured path and the
match length.  All quantifiers are forced: the whitespace and non-space
runs are maximal and the path run extends to the closing quote. -/
def matchImportAt (q : Char) (s : List Char) :
    Option (List Char × List Char × Nat) :=
  if "import".toList.isPrefixOf s then
    let s1 := s.drop 6
    let w1 := s1.takeWhile isJsSpace
    let s2 := s1.drop w1.length
    let v := s2.takeWhile (fun c => !isJsSpace c)
    let s3 := s2.drop v.length
    let w2 := s3.takeWhile isJsSpace
    let s4 := s3.drop w2.length
    if w1 != [] && v != [] && w2 != []
        && "from".toList.isPrefixOf s4 then
      let s5 := s4.drop 4
      let w3 := s5.takeWhile isJsSpace
      let s6 := s5.drop w3.length
      if w3 != [] then
        match s6 with
        | c :: s7 =>
          if c == q then
            let p := s7.takeWhile (fun d => d != q)
            let s8 := s7.drop p.length
            if importPathOk p && (s8.head? == some q) then
              some (v, p, 6 + w1.length + v.length + w2.length + 4
                + w3.length + 1 + p.length + 1)
            else none
          else none
        | [] => none
      else none
    else none
  else none

/-- Match `const\s+([^\s=]+)\s*=\s*require\s*\(\s*<q>(…)<q>\s*\)` at the
head of `s`. -/
def matchRequireAt (q : Char) (s : List Char) :
    Option (List Char × List Char × Nat) :=
  if "const".toList.isPrefixOf s then
    let s1 := s.drop 5
    let w1 := s1.takeWhile isJsSpace
    let s2 := s1.drop w1.length
    let v := s2.takeWhile (fun c => !isJsSpace c && c != '=')
    let s3 := s2.drop v.length
    let w2 := s3.takeWhile isJsSpace
    let s4 := s3.drop w2.length
    if w1 != [] && v != [] then
      match s4 with
      | '=' :: s5 =>
        let w3 := s5.takeWhile isJsSpace
        let s6 := s5.drop w3.length
        if "require".toList.isPrefixOf s6 then
          let s7 := s6.drop 7
          let w4 := s7.takeWhile isJsSpace
          let s8 := s7.drop w4.length
          match s8 with
          | '(' :: s9 =>
            let w5 := s9.takeWhile isJsSpace
            let s10 := s9.drop w5.length
            match s10 with
            | c :: s11 =>
              if c == q then
                let p := s11.takeWhile (fun d => d != q)
                let s12 := s11.drop p.length
                match s12 with
                | c2 :: s13 =>
                  if c2 == q && importPathOk p then
                    let w6 := s13.takeWhile isJsSpace
                    let s14 := s13.drop w6.length
                    if s14.head? == some ')' then
                      some (v, p, 5 + w1.length + v.length + w2.length
                        + 1 + w3.length + 7 + w4.length + 1 + w5.length
                        + 1 + p.length + 1 + w6.length + 1)
                    else none
                  else none
                | [] => none
              else none
            | [] => none
          | _ => none
        else none
      | _ => none
    else none
  else none

/-- The `while ((match = pattern.regex.exec(source)) !== null)` loop for
one pattern: try every position, continue after the end of each match. -/
def scanAux (m : List Char → Option (List Char × List Char × Nat)) :
    Nat → List Char → List (List Char × List Char × List Char)
  | 0, _ => []
  | _ + 1, [] => []
  | fuel + 1, c :: rest =>
    match m (c :: rest) with
    | some (v, p, len) =>
      ((c :: rest).take len, v, p) :: scanAux m fuel ((c :: rest).drop len)
    | none => scanAux m fuel rest

def scanMatches (m : List Char → Option (List Char × List Char × Nat))
    (s : List Char) : List (List Char × List Char × List Char) :=
  scanAux m s.length s

def squote : Char := '\x27'

/-- All matches in the order produced by the `importPatterns` array:
import-single, import-double, require-single, require-double, each
scanning the original source. -/
def allPatternMatches (source : List Char) :
    List (List Char × List Char × List Char) :=
  scanMatches (matchImportAt squote) source
    ++ scanMatches (matchImportAt '"') source
    ++ scanMatches (matchRequireAt squote) source
    ++ scanMatches (matchRequireAt '"') source

/-- JS `String.prototype.replace` with a plain-string pattern: replace the
first occurrence. -/
def replaceFirst (target repl : List Char) : List Char → List Char
  | [] => if target.isEmpty then repl else []
  | c :: rest =>
    if target.isPrefixOf (c :: rest) then
      repl ++ (c :: rest).drop target.length
    else c :: replaceFirst target repl rest

/-- The statement patch applied after processing one match: strip the
`!webp` marker when present, otherwise rewrite the path to `.webp` when
the conversion decided to, otherwise leave the text unchanged (source
lines 468–491; the development branch performs exactly the `hasSkip`
case). -/
def applyReplacement (hasSkip rewrite : Bool) (fm p mod : List Char) :
    List Char :=
  if hasSkip then
    replaceFirst fm (replaceFirst p (stripWebpMark p) fm) mod
  else if rewrite then
    replaceFirst fm (replaceFirst p (webpizeImportPath p) fm) mod
  else mod

/-- The `ImportInfo` record pushed onto `imports`. -/
structure ImpInfo where
  fullMatch : List Char
  variableName : List Char
  path : List Char
  imagePath : Option (List Char)
  skipWebpConversion : Bool
  resolveError : Bool
deriving DecidableEq, Repr

/-- Host facilities seen by the loader: module resolution, file existence
and the encoded sizes produced by sharp for a given file. -/
structure LoaderEnv where
  resolve : List Char → Option (List Char)
  fileExists : List Char → Bool
  origSize : List Char → Nat
  encodeAt : List Char → Int → Bool → Nat

structure LoaderState where
  modified : List Char
  processed : List (List Char)
  imports : List ImpInfo
deriving Repr

/-- `/\/\*\*\s*disabled-webp-convert-plugin\s*\*\//` tried at the head of
`s`. -/
def matchDisableAt (s : List Char) : Bool :=
  "\x2f**".toList.isPrefixOf s &&
    ("disabled-webp-convert-plugin".toList.isPrefixOf
        ((s.drop 3).dropWhile isJsSpace) &&
      "*\x2f".toList.isPrefixOf
        ((((s.drop 3).dropWhile isJsSpace).drop 28).dropWhile isJsSpace))

/-- `DISABLE_COMMENT_PATTERN.test (source.slice 0 500)`. -/
def hasDisableComment : List Char → Bool
  | [] => false
  | c :: rest => matchDisableAt (c :: rest) || hasDisableComment rest

/-- Processing of one match in the production branch (`processImports`
body).  `fd` is `isFileDisabled`.  The already-processed branch `continue`s
before the statement patch, so it leaves the whole state unchanged (the
`rewritePath = true` assignment it makes is discarded by the `continue`);
registration in `processedImagePaths` happens only in the
exists-and-not-skipped branch, before the conversion. -/
def prodStep (env : LoaderEnv) (cfg : WebpConverterConfig) (fd : Bool)
    (S : LoaderState) (m : List Char × List Char × List Char) :
    LoaderState :=
  let fm := m.1
  let v := m.2.1
  let p := m.2.2
  let hasSkip := endsWithStr "!webp" p
  let clean := stripWebpMark p
  let skip := fd || hasSkip
  match env.resolve clean with
  | none =>
    { modified := applyReplacement hasSkip false fm p S.modified,
      processed := S.processed,
      imports := S.imports ++ [⟨fm, v, p, none, skip, true⟩] }
  | some ip =>
    if S.processed.contains ip then S
    else if env.fileExists ip && !skip then
      let originalSize := env.origSize ip
      let r := transcode (env.encodeAt ip) originalSize cfg.quality
        cfg.minQuality cfg.lossless
      let rewrite : Bool :=
        decide (r.2 < originalSize) || !cfg.onlySmallerFiles
      { modified := applyReplacement hasSkip rewrite fm p S.modified,
        processed := ip :: S.processed,
        imports := S.imports ++ [⟨fm, v, p, some ip, skip, false⟩] }
    else
      { modified := applyReplacement hasSkip false fm p S.modified,
        processed := S.processed,
        imports := S.imports ++ [⟨fm, v, p, some ip, skip, false⟩] }

/-- One match in the development branch: only strip the `!webp` marker. -/
def devStep (mod : List Char) (m : List Char × List Char × List Char) :
    List Char :=
  applyReplacement (endsWithStr "!webp" m.2.2) false m.1 m.2.2 mod

/-- The development branch of the loader. -/
def devProcess (source : List Char) : List Char :=
  (allPatternMatches source).foldl devStep source

def dedupAux (seen : List (List Char)) : List ImpInfo → List ImpInfo
  | [] => []
  | i :: rest =>
    if seen.contains i.fullMatch then dedupAux seen rest
    else i :: dedupAux (i.fullMatch :: seen) rest

/-- `imports.filter((item, i, self) => i === self.findIndex(t =>
t.fullMatch === item.fullMatch))`: keep the first entry per full matched
text.  Run *after* the match loop, on the collected list only. -/
def dedupByFullMatch (l : List ImpInfo) : List ImpInfo := dedupAux [] l

structure LoaderResult where
  modified : List Char
  imports : List ImpInfo
  processed : List (List Char)
deriving Repr

/-- The production branch of the loader on one source file: fresh
`processedImagePaths` (the loader defaults to a new `Set`), match loop
with in-loop statement patching, then the report-list dedup. -/
def prodProcess (env : LoaderEnv) (cfg : WebpConverterConfig)
    (source : List Char) : LoaderResult :=
  let fd := hasDisableComment (source.take 500)
  let S := (allPatternMatches source).foldl (prodStep env cfg fd)
    ⟨source, [], []⟩
  ⟨S.modified, dedupByFullMatch S.imports, S.processed⟩

def specDedupMatchesAux (seen : List (List Char)) :
    List (List Char × List Char × List Char) →
    List (List Char × List Char × List Char)
  | [] => []
  | m :: rest =>
    if seen.contains m.1 then specDedupMatchesAux seen rest
    else m :: specDedupMatchesAux (m.1 :: seen) rest

/-- Modelled from the spec's words for comparison (C8): "references are
deduplicated by their exact matched text before any rewriting is applied"
— the match list is deduplicated by full matched text *before* the
replacement fold runs. -/
def specDedupFirstProcess (env : LoaderEnv) (cfg : WebpConverterConfig)
    (source : List Char) : LoaderResult :=
  let fd := hasDisableComment (source.take 500)
  let S := (specDedupMatchesAux [] (allPatternMatches source)).foldl
    (prodStep env cfg fd) ⟨source, [], []⟩
  ⟨S.modified, dedupByFullMatch S.imports, S.processed⟩

/-- With the file-level marker set, one production step reduces to the
development strip step: the registry is never written (the conversion
branch needs `!skip`), so it stays empty, and the statement patch is
exactly the `hasSkip`-only patch. -/
theorem prodStep_disabled (env : LoaderEnv) (cfg : WebpConverterConfig)
    (mod : List Char) (imps : List ImpInfo)
    (m : List Char × List Char × List Char) :
    prodStep env cfg true ⟨mod, [], imps⟩ m =
      ⟨devStep mod m, [],
        imps ++ [⟨m.1, m.2.1, m.2.2,
          env.resolve (stripWebpMark m.2.2), true,
          (env.resolve (stripWebpMark m.2.2)).isNone⟩]⟩ := by
  unfold prodStep devStep
  cases h : env.resolve (stripWebpMark m.2.2) with
  | none => simp [h]
  | some ip => simp [h, List.contains]

theorem foldl_prodStep_disabled (env : LoaderEnv)
    (cfg : WebpConverterConfig) :
    ∀ (ms : List (List Char × List Char × List Char)) (mod : List Char)
      (imps : List ImpInfo),
      (ms.foldl (prodStep env cfg true) ⟨mod, [], imps⟩).modified =
        ms.foldl devStep mod := by
  intro ms
  induction ms with
  | nil => intro mod imps; rfl
  | cons m rest ih =>
    intro mod imps
    simp only [List.foldl_cons, prodStep_disabled]
    exact ih _ _

/-- C6 (amended): with the file-level opt-out marker in the leading 500
characters, the production rewrite equals the development strip-only
rewrite for every source, environment and configuration — no import is
ever rewritten to the compact extension; and in development mode the
`!webp` suffix is stripped with no conversion attempted, as on the spec's
example statement.  (In production the suffix survives exactly when the
resolved path was already registered in the same call — see the
counterexample.) -/
theorem file_disabled_and_dev_strip :
    (∀ (env : LoaderEnv) (cfg : WebpConverterConfig) (source : List Char),
      hasDisableComment (source.take 500) = true →
      (prodProcess env cfg source).modified = devProcess source) ∧
    devProcess "import logo from \x27@/assets/logo.png!webp\x27".toList =
      "import logo from \x27@/assets/logo.png\x27".toList := by
  constructor
  · intro env cfg source hdis
    unfold prodProcess
    simp only [hdis]
    exact foldl_prodStep_disabled env cfg _ source []
  · decide

/-- A file led by the opt-out comment. -/
def disabledSrc : List Char :=
  ("\x2f** disabled-webp-convert-plugin *\x2f\nimport a from \x27./x.png\x27").toList

/-- Environment for the loader counterexamples: `./x.png` resolves to
`/img/x.png`, which exists and shrinks from 100 to 50 bytes at every
quality. -/
def env6 : LoaderEnv :=
  { resolve := fun p =>
      if p = "./x.png".toList then some "/img/x.png".toList else none,
    fileExists := fun p => p == "/img/x.png".toList,
    origSize := fun _ => 100,
    encodeAt := fun _ _ _ => 50 }

/-- C6 witness: on the marker-led file the production output equals the
development output, leaving the import untouched. -/
theorem file_disabled_and_dev_strip_witness :
    hasDisableComment (disabledSrc.take 500) = true ∧
    (prodProcess env6 defaultCofig disabledSrc).modified =
      devProcess disabledSrc :=
  ⟨by decide,
    file_disabled_and_dev_strip.1 env6 defaultCofig disabledSrc (by decide)⟩

/-- Source importing the same image twice, the second time with the
opt-out suffix. -/
def dupSrc6 : List Char :=
  ("import a from \x27./x.png\x27\nimport b from \x27./x.png!webp\x27").toList

/-- C6 counterexample: in production, a `!webp`-marked statement whose
resolved path was already processed earlier in the same file is left
completely unmodified — the opt-out suffix is *not* stripped from the
emitted text (the already-processed branch `continue`s past the patch),
refuting "stripped in every environment". -/
theorem skip_mark_not_stripped_when_processed :
    (prodProcess env6 defaultCofig dupSrc6).modified =
      ("import a from \x27./x.webp\x27\nimport b from \x27./x.png!webp\x27").toList ∧
    containsSeg "!webp".toList
      (prodProcess env6 defaultCofig dupSrc6).modified = true := by
  decide

/-- C7 (amended): the DedupRegistry is written only on the
exists-and-not-opted-out path.  When the reference resolves, is not yet
registered, the file exists and no opt-out applies, the path is registered
(before the conversion, hence for every conversion outcome); when an
opt-out applies (file marker or `!webp` suffix), the registry is left
unchanged. -/
theorem registry_registration_semantics (env : LoaderEnv)
    (cfg : WebpConverterConfig) (fd : Bool) (S : LoaderState)
    (fm v p ip : List Char)
    (hres : env.resolve (stripWebpMark p) = some ip) :
    ((fd || endsWithStr "!webp" p) = false →
      S.processed.contains ip = false →
      env.fileExists ip = true →
      (prodStep env cfg fd S (fm, v, p)).processed = ip :: S.processed) ∧
    ((fd || endsWithStr "!webp" p) = true →
      (prodStep env cfg fd S (fm, v, p)).processed = S.processed) := by
  constructor
  · intro hskip hcont hex
    unfold prodStep
    simp only [hres, hcont, Bool.false_eq_true, if_false, hskip, hex]
    simp
  · intro hskip
    unfold prodStep
    simp only [hres, hskip]
    split
    · rfl
    · simp

/-- Environment where `./p.png` resolves and exists. -/
def env7 : LoaderEnv :=
  { resolve := fun p =>
      if p = "./p.png".toList then some "/img/p.png".toList else none,
    fileExists := fun _ => true,
    origSize := fun _ => 100,
    encodeAt := fun _ _ _ => 50 }

/-- C7 counterexample: a `!webp`-marked reference to an existing,
resolvable image finishes the loader call with an *empty* processed set —
the path is not registered on the skip outcome; likewise a reference whose
resolution fails is never registered. -/
theorem skip_and_error_paths_not_registered :
    (prodProcess env7 defaultCofig
      "import a from \x27./p.png!webp\x27".toList).processed = [] ∧
    (prodProcess env6 defaultCofig
      "import a from \x27./missing.png\x27".toList).processed = [] := by
  decide

/-- C7 amended witness: the registration happens on the plain path and is
skipped on the marked path. -/
theorem registry_registration_semantics_witness :
    (prodStep env6 defaultCofig false ⟨[], [], []⟩
      ("m1".toList, "a".toList, "./x.png".toList)).processed =
      ["/img/x.png".toList] ∧
    (prodStep env7 defaultCofig false ⟨[], [], []⟩
      ("m2".toList, "b".toList, "./p.png!webp".toList)).processed = [] :=
  ⟨(registry_registration_semantics env6 defaultCofig false ⟨[], [], []⟩
      "m1".toList "a".toList "./x.png".toList "/img/x.png".toList
      (by decide)).1 (by decide) (by decide) (by decide),
    (registry_registration_semantics env7 defaultCofig false ⟨[], [], []⟩
      "m2".toList "b".toList "./p.png!webp".toList "/img/p.png".toList
      (by decide)).2 (by decide)⟩

/-- Environment in which nothing resolves. -/
def env8 : LoaderEnv :=
  { resolve := fun _ => none,
    fileExists := fun _ => false,
    origSize := fun _ => 0,
    encodeAt := fun _ _ _ => 0 }

/-- Two byte-identical marked import statements. -/
def dupSrc8 : List Char :=
  ("import a from \x27./x.png!webp\x27\nimport a from \x27./x.png!webp\x27").toList

/-- C8 counterexample: the loader does *not* deduplicate matches by exact
matched text before rewriting — on a file with two identical statements
its output differs from the dedup-before-rewriting semantics the claim
describes (the code patches both statements, dedup-first would patch only
the first). -/
theorem dedup_not_before_rewriting :
    (prodProcess env8 defaultCofig dupSrc8).modified ≠
      (specDedupFirstProcess env8 defaultCofig dupSrc8).modified := by
  decide

/-- C8 (amended): deduplication by exact matched text happens only after
all replacements and only filters the reported reference list: on the
duplicate-statement file every match is patched (each replacement hits the
first remaining occurrence of its text) while the report keeps a single
entry; dedup-first would leave the second statement unpatched. -/
theorem dedup_only_filters_report :
    (prodProcess env8 defaultCofig dupSrc8).modified =
      ("import a from \x27./x.png\x27\nimport a from \x27./x.png\x27").toList ∧
    (prodProcess env8 defaultCofig dupSrc8).imports.length = 1 ∧
    (specDedupFirstProcess env8 defaultCofig dupSrc8).modified =
      ("import a from \x27./x.png\x27\nimport a from \x27./x.png!webp\x27").toList := by
  decide

end WebpSpec
